import Mathlib

/-!
Verification of the GitKit github_email_finder program.

The program (src/gitkit/github_email_finder.py) enumerates GitHub
repositories (owned repositories plus organization repositories with push
access) and scans each repository's commits and pull requests for email
addresses, aggregating them into a global set and a per-repository mapping.

Modelling conventions:
  * Every HTTP response is an external input, supplied as an oracle
    function from request parameters (page number, organization name,
    pull-request number) to a response consisting of a status code and a
    parsed JSON body.
  * The unbounded while-loops of the source paginate until an empty page
    or an error; they are embedded as fuel-indexed recursions returning
    Option (none means the fuel ran out, which never happens for the
    finite oracles the theorems consider).
  * Python sets become Finset String; the Python dict (insertion ordered,
    assignment replaces the value of an existing key in place) becomes an
    association list with an assignment operation mirroring dict update.
  * raise_for_status raises for status codes in [400, 600); the raised
    requests exception is modelled as Except.error carrying the status.
  * Each loop additionally records the paginated requests it issues as a
    list of (per_page, page) pairs, and the pull-request scan records the
    pull-request numbers whose commit lists it fetches; these logs make
    the observable request traffic of the source explicit.
-/

namespace GitKit

/-- An HTTP response: status code and parsed JSON body. -/
structure HttpResp (α : Type) where
  status : Nat
  body : α
deriving DecidableEq

/-- Semantics of requests' raise_for_status: an exception is raised
exactly for client and server error codes, 400 to 599. -/
def isHttpError (s : Nat) : Bool := decide (400 ≤ s) && decide (s < 600)

deriving instance DecidableEq for Except

/-- The value of commit.get "commit" then .get "author" (or "committer")
as the extraction code sees it: the key can be missing, the value can be
JSON null, an empty object, a non-empty object without an "email" key, or
an object carrying an "email" string. -/
inductive PersonField where
  | missing
  | null
  | emptyObj
  | objNoEmail
  | objEmail (email : String)
deriving DecidableEq

/-- The guard in the source is: if author and "email" in author. A missing
key defaults to an empty dict (falsy), None and an empty dict are falsy,
and a truthy dict contributes only when it has an "email" key. -/
def PersonField.extract : PersonField → Option String
  | .objEmail e => some e
  | _ => none

/-- The fields of one commit object that the scanner reads: the nested
commit.author and commit.committer objects. A commit whose outer "commit"
key is absent is represented with both fields missing. -/
structure CommitData where
  author : PersonField
  committer : PersonField
deriving DecidableEq

/-- The per-commit body shared by the commit scan and the pull-request
scan: add the author email if its guard passes, then the committer email
if its guard passes. -/
def addCommitEmails (emails : Finset String) (c : CommitData) : Finset String :=
  let e1 := match c.author.extract with
    | some e => insert e emails
    | none => emails
  match c.committer.extract with
  | some e => insert e e1
  | none => e1

/-- The fields of one pull-request object that the scanner reads:
pr "number" and pr.get "user" then .get "login" (none when the user
object or its login key is missing or null). -/
structure PullReq where
  number : Nat
  userLogin : Option String
deriving DecidableEq

/-- The permissions object of a repository entry: the "push" key may be
absent (in which ase .get "push" False yields False). -/
structure PermObj where
  push : Option Bool
deriving DecidableEq

/-- The fields of one repository entry that the program reads:
repo "owner" "login", repo "name", and repo.get "permissions". -/
structure Repo where
  ownerLogin : String
  name : String
  permissions : Option PermObj
deriving DecidableEq

/-- repo.get "permissions" with default empty dict, then .get "push" with
default False: true exactly when a permissions object is present and its
push key holds true. -/
def Repo.hasPushAccess (r : Repo) : Bool :=
  match r.permissions with
  | none => false
  | some p => match p.push with
    | none => false
    | some b => b

/-- The owner/name pair identifying a repository in the scanning phase. -/
structure RepoRef where
  owner : String
  name : String
deriving DecidableEq

/-- The f-string key owner/name used for the per-repository mapping. -/
def RepoRef.key (r : RepoRef) : String := r.owner ++ "/" ++ r.name

def Repo.ref (r : Repo) : RepoRef := ⟨r.ownerLogin, r.name⟩

/-- Pagination loop of get_user_repos: fetch page, raise_for_status
(modelled as Except.error), stop on an empty batch, otherwise extend the
accumulator and move to the next page. Also returns the list of
(per_page, page) requests issued. -/
def getUserReposLoop (fetch : Nat → HttpResp (List Repo)) :
    Nat → Nat → List Repo → Option (Except Nat (List Repo) × List (Nat × Nat))
  | 0, _, _ => none
  | fuel + 1, page, repos =>
    let resp := fetch page
    if isHttpError resp.status then some (.error resp.status, [(100, page)])
    else if resp.body.isEmpty then some (.ok repos, [(100, page)])
    else
      match getUserReposLoop fetch fuel (page + 1) (repos ++ resp.body) with
      | none => none
      | some (res, log) => some (res, (100, page) :: log)

/-- get_user_repos: paginate from page 1 with an empty accumulator. -/
def get_user_repos (fetch : Nat → HttpResp (List Repo)) (fuel : Nat) :
    Option (Except Nat (List Repo) × List (Nat × Nat)) :=
  getUserReposLoop fetch fuel 1 []

/-- Inner pagination loop of get_org_repos for one organization: fetch
page, raise_for_status, stop on an empty batch, otherwise keep only the
entries with push access, extend the accumulator, and move on. -/
def orgRepoLoop (fetch : Nat → HttpResp (List Repo)) :
    Nat → Nat → List Repo → Option (Except Nat (List Repo) × List (Nat × Nat))
  | 0, _, _ => none
  | fuel + 1, page, acc =>
    let resp := fetch page
    if isHttpError resp.status then some (.error resp.status, [(100, page)])
    else if resp.body.isEmpty then some (.ok acc, [(100, page)])
    else
      match orgRepoLoop fetch fuel (page + 1)
          (acc ++ resp.body.filter Repo.hasPushAccess) with
      | none => none
      | some (res, log) => some (res, (100, page) :: log)

/-- The for-loop of get_org_repos over the organizations, threading the
shared all_org_repos accumulator through each organization's pagination. -/
def getOrgReposGo (orgPage : String → Nat → HttpResp (List Repo)) (fuel : Nat) :
    List String → List Repo → Option (Except Nat (List Repo))
  | [], acc => some (.ok acc)
  | org :: rest, acc =>
    match orgRepoLoop (orgPage org) fuel 1 acc with
    | none => none
    | some (.error e, _) => some (.error e)
    | some (.ok acc2, _) => getOrgReposGo orgPage fuel rest acc2

/-- get_org_repos: a single unpaged organizations call guarded by
raise_for_status, then per-organization pagination. -/
def get_org_repos (orgsResp : HttpResp (List String))
    (orgPage : String → Nat → HttpResp (List Repo)) (fuel : Nat) :
    Option (Except Nat (List Repo)) :=
  if isHttpError orgsResp.status then some (.error orgsResp.status)
  else getOrgReposGo orgPage fuel orgsResp.body []

/-- Pagination loop of the commit scan in get_contribution_emails: stop
on a non-200 status or an empty batch (break, not an exception), else add
each commit's author and committer emails and continue. -/
def commitScanLoop (fetch : Nat → HttpResp (List CommitData)) :
    Nat → Nat → Finset String → Option (Finset String × List (Nat × Nat))
  | 0, _, _ => none
  | fuel + 1, page, emails =>
    let resp := fetch page
    if resp.status ≠ 200 then some (emails, [(100, page)])
    else if resp.body.isEmpty then some (emails, [(100, page)])
    else
      match commitScanLoop fetch fuel (page + 1)
          (resp.body.foldl addCommitEmails emails) with
      | none => none
      | some (e, log) => some (e, (100, page) :: log)

/-- The per-pull-request body: fetch the pull request's commit list
(single unpaged call, always recorded in the fetch log), and when the
status is 200 add the emails of each returned commit. -/
def prStep (prCommits : Nat → HttpResp (List CommitData))
    (acc : Finset String × List Nat) (pr : PullReq) : Finset String × List Nat :=
  let resp := prCommits pr.number
  if resp.status = 200 then
    (resp.body.foldl addCommitEmails acc.1, acc.2 ++ [pr.number])
  else (acc.1, acc.2 ++ [pr.number])

/-- Processing of one page of pull requests: filter to the pull requests
whose opener login equals the username, then run the per-pull-request
body over each of them. -/
def processPRPage (prCommits : Nat → HttpResp (List CommitData))
    (username : String) (prs : List PullReq) (emails : Finset String) :
    Finset String × List Nat :=
  (prs.filter (fun pr => pr.userLogin == some username)).foldl
    (prStep prCommits) (emails, [])

/-- Pagination loop of the pull-request scan: stop on a non-200 status or
an empty batch, else process the page and continue. Returns the final
email set, the (per_page, page) request log, and the list of pull-request
numbers whose commit lists were fetched. -/
def prScanLoop (fetch : Nat → HttpResp (List PullReq))
    (prCommits : Nat → HttpResp (List CommitData)) (username : String) :
    Nat → Nat → Finset String → Option (Finset String × List (Nat × Nat) × List Nat)
  | 0, _, _ => none
  | fuel + 1, page, emails =>
    let resp := fetch page
    if resp.status ≠ 200 then some (emails, [(100, page)], [])
    else if resp.body.isEmpty then some (emails, [(100, page)], [])
    else
      match prScanLoop fetch prCommits username fuel (page + 1)
          (processPRPage prCommits username resp.body emails).1 with
      | none => none
      | some (e, log, fl) =>
          some (e, (100, page) :: log,
            (processPRPage prCommits username resp.body emails).2 ++ fl)

/-- Result of get_contribution_emails together with its request logs. -/
structure ScanOut where
  emails : Finset String
  commitReqs : List (Nat × Nat)
  prReqs : List (Nat × Nat)
  prFetches : List Nat
deriving DecidableEq

/-- get_contribution_emails: the commit scan from page 1 on an empty set,
then the pull-request scan from page 1 continuing on the same set. -/
def get_contribution_emails (commitsPage : Nat → HttpResp (List CommitData))
    (prsPage : Nat → HttpResp (List PullReq))
    (prCommits : Nat → HttpResp (List CommitData))
    (username : String) (fuel : Nat) : Option ScanOut :=
  match commitScanLoop commitsPage fuel 1 ∅ with
  | none => none
  | some (es, clog) =>
    match prScanLoop prsPage prCommits username fuel 1 es with
    | none => none
    | some (es2, plog, flog) => some ⟨es2, clog, plog, flog⟩

/-- Python dict assignment d k = v on an insertion-ordered dict with
unique keys: replace the value of the first entry with key k in place,
or append a new entry at the end. -/
def dictAssign (d : List (String × Finset String)) (k : String)
    (v : Finset String) : List (String × Finset String) :=
  match d with
  | [] => [(k, v)]
  | p :: rest => if p.1 = k then (k, v) :: rest else p :: dictAssign rest k v

/-- Lookup in the insertion-ordered dict model. -/
def dictLookup (d : List (String × Finset String)) (k : String) :
    Option (Finset String) :=
  match d with
  | [] => none
  | p :: rest => if p.1 = k then some p.2 else dictLookup rest k

/-- The two accumulators of the aggregation loop in main: the global
email set all_emails and the per-repository mapping repo_emails. -/
structure AggState where
  allEmails : Finset String
  repoEmails : List (String × Finset String)
deriving DecidableEq

/-- One iteration of the aggregation loop in main: when the scan of this
repository returned a non-empty set, record it under the owner/name key
(dict assignment, replacing any earlier entry for the key) and union it
into the global set; otherwise change nothing. -/
def scanStep (st : AggState) (entry : RepoRef × Finset String) : AggState :=
  if entry.2 = ∅ then st
  else
    { allEmails := st.allEmails ∪ entry.2,
      repoEmails := dictAssign st.repoEmails entry.1.key entry.2 }

/-- The aggregation loop of main over the repository sequence. Each HTTP
scan is a fresh network interaction, so the input is the trace of
(repository reference, scan result) pairs in processing order. -/
def processRepos (scans : List (RepoRef × Finset String)) : AggState :=
  scans.foldl scanStep ⟨∅, []⟩

/-- All HTTP responses a run can observe, as one oracle record: the
authenticated-user response (its body reduced to the login the program
reads), the paged owned-repository listing, the unpaged organizations
listing, the paged per-organization repository listing, and the three
per-repository oracles of the scanner. -/
structure World where
  userResp : HttpResp String
  userReposPage : Nat → HttpResp (List Repo)
  orgsResp : HttpResp (List String)
  orgPage : String → Nat → HttpResp (List Repo)
  commitsPage : RepoRef → Nat → HttpResp (List CommitData)
  prsPage : RepoRef → Nat → HttpResp (List PullReq)
  prCommits : RepoRef → Nat → HttpResp (List CommitData)

/-- The scanning for-loop of main: call get_contribution_emails on each
repository in order, producing the trace consumed by the aggregation. -/
def scanAllRepos (w : World) (username : String) (fuel : Nat) :
    List Repo → Option (List (RepoRef × Finset String))
  | [] => some []
  | repo :: rest =>
    match get_contribution_emails (w.commitsPage repo.ref) (w.prsPage repo.ref)
        (w.prCommits repo.ref) username fuel with
    | none => none
    | some out =>
      match scanAllRepos w username fuel rest with
      | none => none
      | some l => some ((repo.ref, out.emails) :: l)

/-- Python truthiness of the token argument in main: args.token is None
when the flag is absent, and the branch if not token also fires on the
empty string. -/
def tokenMissing (token : Option String) : Bool :=
  match token with
  | none => true
  | some t => t == ""

/-- Observable outcome of one run of main: the usage branch (prints the
token prompt and exits with status 1 before any request), the
RequestException handler (prints the error and exits with status 1), or
normal completion with the reported aggregates. -/
inductive MainOutcome where
  | usageExit
  | httpAbort (status : Nat)
  | success (username : String) (allEmails : Finset String)
      (repoEmails : List (String × Finset String))
deriving DecidableEq

/-- main: token check; authenticated-user lookup guarded by
raise_for_status; owned-repository listing (failures propagate to the
RequestException handler); organization-repository listing (failures
propagate likewise); then the scan of user_repos ++ org_repos and the
aggregation of the resulting trace. -/
def main (token : Option String) (w : World) (fuel : Nat) : Option MainOutcome :=
  if tokenMissing token then some .usageExit
  else if isHttpError w.userResp.status then some (.httpAbort w.userResp.status)
  else
    match get_user_repos w.userReposPage fuel with
    | none => none
    | some (.error e, _) => some (.httpAbort e)
    | some (.ok userRepos, _) =>
      match get_org_repos w.orgsResp w.orgPage fuel with
      | none => none
      | some (.error e) => some (.httpAbort e)
      | some (.ok orgRepos) =>
        match scanAllRepos w w.userResp.body fuel (userRepos ++ orgRepos) with
        | none => none
        | some scans =>
          let st := processRepos scans
          some (.success w.userResp.body st.allEmails st.repoEmails)

/-- Page p of a finite listing with per_page 100: the GitHub slicing
semantics used to state pagination properties. -/
def chunk (l : List α) (page : Nat) : List α := (l.drop ((page - 1) * 100)).take 100

/-- An oracle serving a finite listing faithfully: every page request
succeeds with status 200 and the corresponding 100-item slice. -/
def slicingOracle (l : List α) : Nat → HttpResp (List α) :=
  fun page => ⟨200, chunk l page⟩

/-- Number of requests needed to exhaust an n-item listing: all non-empty
pages, ceil (n / 100), plus the final empty page. -/
def pagesFor (n : Nat) : Nat := (n + 99) / 100 + 1

/-- The request log of a pagination that starts at page p0 and issues k
requests of size 100, incrementing the page by one each time. -/
def pageLog (p0 k : Nat) : List (Nat × Nat) :=
  (List.range k).map (fun i => (100, p0 + i))

/-- Concrete one-commit oracle used to instantiate the scanner theorems:
page 1 holds a single commit whose author and committer both carry the
address a at x, and every later page is empty. -/
def oneCommitOracle : Nat → HttpResp (List CommitData) :=
  fun p => if p = 1 then ⟨200, [⟨.objEmail "a@x", .objEmail "a@x"⟩]⟩ else ⟨200, []⟩

/-- Concrete commit-list oracle that always answers 403 Forbidden. -/
def errorCommitsOracle : Nat → HttpResp (List CommitData) :=
  fun _ => ⟨403, []⟩

/-- Concrete per-pull-request commit-list oracle: the fetch for pull
request 2 succeeds with one commit, every other fetch answers 403. -/
def mixedPRCommitsOracle : Nat → HttpResp (List CommitData) :=
  fun n => if n = 2 then ⟨200, [⟨.objEmail "a@x", .objEmail "a@x"⟩]⟩ else ⟨403, []⟩

/-- Concrete pull-request listing whose every page is empty. -/
def emptyPRPageOracle : Nat → HttpResp (List PullReq) :=
  fun _ => ⟨200, []⟩

/-- Concrete pull-request listing: page 1 holds one pull request opened
by alice, every later page is empty. -/
def onePRPageOracle : Nat → HttpResp (List PullReq) :=
  fun p => if p = 1 then ⟨200, [⟨1, some "alice"⟩]⟩ else ⟨200, []⟩

/-- Concrete repository listing oracle that always answers 403. -/
def errorRepoPageOracle : Nat → HttpResp (List Repo) :=
  fun _ => ⟨403, []⟩

/-- Concrete pull-request listing oracle that always answers 403. -/
def errorPRPageOracle : Nat → HttpResp (List PullReq) :=
  fun _ => ⟨403, []⟩

/-- Concrete organization repository with push access. -/
def demoRepoPush : Repo := ⟨"acme", "tool", some ⟨some true⟩⟩

/-- Concrete organization repository without push access. -/
def demoRepoNoPush : Repo := ⟨"acme", "web", some ⟨some false⟩⟩

/-- Concrete two-entry organization listing: one entry with push access
and one without. -/
def demoOrgListing : List Repo := [demoRepoPush, demoRepoNoPush]

/-- Concrete repository owned by the beta organization, with push access. -/
def betaRepo : Repo := ⟨"beta", "tool", some ⟨some true⟩⟩

/-- Concrete per-organization page oracle: every page request for acme
fails with 403, while beta serves one repository on page 1 and an empty
page afterwards. -/
def cexOrgPage : String → Nat → HttpResp (List Repo) :=
  fun org p =>
    if org = "acme" then ⟨403, []⟩
    else if p = 1 then ⟨200, [betaRepo]⟩ else ⟨200, []⟩

/-- Concrete scan trace over two repositories with distinct keys. -/
def demoTraceDistinct : List (RepoRef × Finset String) :=
  [(⟨"a", "b"⟩, {"e1"}), (⟨"c", "d"⟩, {"e2"})]

/-- Concrete world in which every request succeeds and every listing is
empty. -/
def trivialWorld : World where
  userResp := ⟨200, "alice"⟩
  userReposPage := fun _ => ⟨200, []⟩
  orgsResp := ⟨200, []⟩
  orgPage := fun _ _ => ⟨200, []⟩
  commitsPage := fun _ _ => ⟨200, []⟩
  prsPage := fun _ _ => ⟨200, []⟩
  prCommits := fun _ _ => ⟨200, []⟩

/-- Concrete world identical to the trivial one except that the identity
belongs to the acme organization and every page request for acme's
repositories fails with 403. -/
def orgFailWorld : World :=
  { trivialWorld with
    orgsResp := ⟨200, ["acme"]⟩
    orgPage := fun _ _ => ⟨403, []⟩ }

/-! Basic lemmas about the per-commit email extraction. -/

theorem subset_addCommitEmails (s : Finset String) (c : CommitData) :
    s ⊆ addCommitEmails s c := by
  unfold addCommitEmails
  rcases h1 : c.author.extract with _ | e1 <;>
    rcases h2 : c.committer.extract with _ | e2 <;> simp only [h1, h2]
  · exact Finset.Subset.refl s
  · exact Finset.subset_insert _ s
  · exact Finset.subset_insert _ s
  · exact (Finset.subset_insert _ s).trans (Finset.subset_insert _ _)

theorem subset_foldl_addCommitEmails (l : List CommitData) (s : Finset String) :
    s ⊆ l.foldl addCommitEmails s := by
  induction l generalizing s with
  | nil => exact Finset.Subset.refl s
  | cons c rest ih =>
    simp only [List.foldl_cons]
    exact (subset_addCommitEmails s c).trans (ih _)

theorem mem_addCommitEmails (s : Finset String) (c : CommitData) (e : String)
    (h : c.author.extract = some e ∨ c.committer.extract = some e) :
    e ∈ addCommitEmails s c := by
  rcases h with h | h <;> rcases hc : c.committer.extract with _ | e2 <;>
    rcases ha : c.author.extract with _ | e1 <;> simp_all [addCommitEmails]

theorem mem_foldl_addCommitEmails (l : List CommitData) (s : Finset String)
    (c : CommitData) (e : String) (hc : c ∈ l)
    (h : c.author.extract = some e ∨ c.committer.extract = some e) :
    e ∈ l.foldl addCommitEmails s := by
  induction l generalizing s with
  | nil => cases hc
  | cons d rest ih =>
    simp only [List.foldl_cons]
    rcases List.mem_cons.mp hc with rfl | hmem
    · exact subset_foldl_addCommitEmails rest _ (mem_addCommitEmails s c e h)
    · exact ih _ hmem

/-! Lemmas about the commit-scan pagination loop. -/

theorem commitScanLoop_mono (fetch : Nat → HttpResp (List CommitData))
    (fuel : Nat) : ∀ (page : Nat) (s : Finset String)
    (out : Finset String × List (Nat × Nat)),
    commitScanLoop fetch fuel page s = some out → s ⊆ out.1 := by
  induction fuel with
  | zero => intro page s out h; simp [commitScanLoop] at h
  | succ n ih =>
    intro page s out h
    rw [commitScanLoop] at h
    split at h
    · cases h; exact Finset.Subset.refl s
    · split at h
      · cases h; exact Finset.Subset.refl s
      · rcases hrec : commitScanLoop fetch n (page + 1)
            ((fetch page).body.foldl addCommitEmails s) with _ | pr
        · rw [hrec] at h; cases h
        · rw [hrec] at h
          rcases pr with ⟨e, log⟩
          cases h
          exact (subset_foldl_addCommitEmails _ s).trans (ih (page + 1) _ (e, log) hrec)

theorem commitScanLoop_step (fetch : Nat → HttpResp (List CommitData))
    (fuel page : Nat) (s : Finset String)
    (h200 : (fetch page).status = 200) (hne : (fetch page).body.isEmpty = false) :
    commitScanLoop fetch (fuel + 1) page s =
      match commitScanLoop fetch fuel (page + 1)
          ((fetch page).body.foldl addCommitEmails s) with
      | none => none
      | some (e, log) => some (e, (100, page) :: log) := by
  rw [commitScanLoop]
  simp [h200, hne]

theorem commitScanLoop_stop (fetch : Nat → HttpResp (List CommitData))
    (fuel page : Nat) (s : Finset String) (h : (fetch page).status ≠ 200) :
    commitScanLoop fetch (fuel + 1) page s = some (s, [(100, page)]) := by
  rw [commitScanLoop]
  simp [h]

/-! Lemmas about the per-pull-request body and the page processing. -/

theorem prStep_log (pc : Nat → HttpResp (List CommitData))
    (acc : Finset String × List Nat) (pr : PullReq) :
    (prStep pc acc pr).2 = acc.2 ++ [pr.number] := by
  unfold prStep
  by_cases h : (pc pr.number).status = 200 <;> simp [h]

theorem prStep_fst_of_fail (pc : Nat → HttpResp (List CommitData))
    (acc : Finset String × List Nat) (pr : PullReq)
    (h : (pc pr.number).status ≠ 200) : (prStep pc acc pr).1 = acc.1 := by
  unfold prStep
  rw [if_neg h]

theorem prStep_fst_log_free (pc : Nat → HttpResp (List CommitData))
    (s : Finset String) (log1 log2 : List Nat) (pr : PullReq) :
    (prStep pc (s, log1) pr).1 = (prStep pc (s, log2) pr).1 := by
  unfold prStep
  by_cases h : (pc pr.number).status = 200 <;> simp [h]

theorem prStep_fst_mono (pc : Nat → HttpResp (List CommitData))
    (acc : Finset String × List Nat) (pr : PullReq) :
    acc.1 ⊆ (prStep pc acc pr).1 := by
  unfold prStep
  by_cases h : (pc pr.number).status = 200 <;> simp [h]
  exact subset_foldl_addCommitEmails _ _

theorem foldl_prStep_log (pc : Nat → HttpResp (List CommitData))
    (l : List PullReq) (acc : Finset String × List Nat) :
    (l.foldl (prStep pc) acc).2 = acc.2 ++ l.map (fun pr => pr.number) := by
  induction l generalizing acc with
  | nil => simp
  | cons pr rest ih =>
    simp only [List.foldl_cons, List.map_cons]
    rw [ih, prStep_log]
    simp

theorem foldl_prStep_fst_log_free (pc : Nat → HttpResp (List CommitData))
    (l : List PullReq) (s : Finset String) (log1 log2 : List Nat) :
    (l.foldl (prStep pc) (s, log1)).1 = (l.foldl (prStep pc) (s, log2)).1 := by
  induction l generalizing s log1 log2 with
  | nil => rfl
  | cons pr rest ih =>
    simp only [List.foldl_cons]
    have hfst := prStep_fst_log_free pc s log1 log2 pr
    rcases h1 : prStep pc (s, log1) pr with ⟨t1, x1⟩
    rcases h2 : prStep pc (s, log2) pr with ⟨t2, x2⟩
    rw [h1, h2] at hfst
    simp only at hfst
    cases hfst
    exact ih t1 x1 x2

theorem foldl_prStep_fst_mono (pc : Nat → HttpResp (List CommitData))
    (l : List PullReq) (acc : Finset String × List Nat) :
    acc.1 ⊆ (l.foldl (prStep pc) acc).1 := by
  induction l generalizing acc with
  | nil => exact Finset.Subset.refl _
  | cons pr rest ih =>
    simp only [List.foldl_cons]
    exact (prStep_fst_mono pc acc pr).trans (ih _)

theorem processPRPage_mono (pc : Nat → HttpResp (List CommitData))
    (username : String) (prs : List PullReq) (s : Finset String) :
    s ⊆ (processPRPage pc username prs s).1 := by
  unfold processPRPage
  exact foldl_prStep_fst_mono pc _ (s, [])

/-! Lemmas about the pull-request-scan pagination loop. -/

theorem prScanLoop_mono (fetch : Nat → HttpResp (List PullReq))
    (pc : Nat → HttpResp (List CommitData)) (username : String)
    (fuel : Nat) : ∀ (page : Nat) (s : Finset String)
    (out : Finset String × List (Nat × Nat) × List Nat),
    prScanLoop fetch pc username fuel page s = some out → s ⊆ out.1 := by
  induction fuel with
  | zero => intro page s out h; simp [prScanLoop] at h
  | succ n ih =>
    intro page s out h
    rw [prScanLoop] at h
    split at h
    · cases h; exact Finset.Subset.refl s
    · split at h
      · cases h; exact Finset.Subset.refl s
      · rcases hrec : prScanLoop fetch pc username n (page + 1)
            (processPRPage pc username (fetch page).body s).1 with _ | pr
        · rw [hrec] at h; cases h
        · rw [hrec] at h
          rcases pr with ⟨e, log, fl⟩
          cases h
          exact (processPRPage_mono pc username _ s).trans
            (ih (page + 1) _ (e, log, fl) hrec)

theorem prScanLoop_step (fetch : Nat → HttpResp (List PullReq))
    (pc : Nat → HttpResp (List CommitData)) (username : String)
    (fuel page : Nat) (s : Finset String)
    (h200 : (fetch page).status = 200) (hne : (fetch page).body.isEmpty = false) :
    prScanLoop fetch pc username (fuel + 1) page s =
      match prScanLoop fetch pc username fuel (page + 1)
          (processPRPage pc username (fetch page).body s).1 with
      | none => none
      | some (e, log, fl) =>
          some (e, (100, page) :: log,
            (processPRPage pc username (fetch page).body s).2 ++ fl) := by
  rw [prScanLoop]
  simp [h200, hne]

theorem prScanLoop_stop (fetch : Nat → HttpResp (List PullReq))
    (pc : Nat → HttpResp (List CommitData)) (username : String)
    (fuel page : Nat) (s : Finset String) (h : (fetch page).status ≠ 200) :
    prScanLoop fetch pc username (fuel + 1) page s = some (s, [(100, page)], []) := by
  rw [prScanLoop]
  simp [h]

/-- A commit returned by a successful commit-list fetch of a pull
request whose opener matches the username contributes its extracted
emails to the page-processing result. -/
theorem mem_processPRPage_of_commit (pc : Nat → HttpResp (List CommitData))
    (username : String) (prs : List PullReq) (s : Finset String) (pr : PullReq)
    (hmem : pr ∈ prs) (hu : pr.userLogin = some username)
    (h200 : (pc pr.number).status = 200) (c : CommitData)
    (hc : c ∈ (pc pr.number).body) (e : String)
    (hx : c.author.extract = some e ∨ c.committer.extract = some e) :
    e ∈ (processPRPage pc username prs s).1 := by
  have hmemf : pr ∈ prs.filter (fun q => q.userLogin == some username) :=
    List.mem_filter.mpr ⟨hmem, by simp [hu]⟩
  obtain ⟨u1, u2, hdec⟩ := List.append_of_mem hmemf
  unfold processPRPage
  rw [hdec, List.foldl_append, List.foldl_cons]
  refine foldl_prStep_fst_mono pc u2 _ ?_
  have hstep : (prStep pc (u1.foldl (prStep pc) (s, [])) pr).1
      = (pc pr.number).body.foldl addCommitEmails
          (u1.foldl (prStep pc) (s, [])).1 := by
    unfold prStep
    simp [h200]
  rw [hstep]
  exact mem_foldl_addCommitEmails _ _ c e hc hx

/-- Claim C4: for every commit processed by the scanner, on both the
commit-scan path and the pull-request path: a present author or
committer object carrying an "email" key contributes that email to the
result set (of the commit-scan loop, of the pull-request page
processing, and of the pull-request-scan loop); an author or committer
field that is not an object with an "email" key extracts nothing (this
covers a missing field, a null value, an empty object and a non-empty
object without the key, and raises no error since the extraction is
total); a commit with neither field extracting anything leaves the set
unchanged; and when author and committer carry the same address, the
set holds it once. -/
theorem claim_C4 :
    (∀ (fetch : Nat → HttpResp (List CommitData)) (fuel page : Nat)
        (s : Finset String) (out : Finset String × List (Nat × Nat)),
      (fetch page).status = 200 → (fetch page).body.isEmpty = false →
      commitScanLoop fetch (fuel + 1) page s = some out →
      ∀ c ∈ (fetch page).body, ∀ e : String,
        (c.author = .objEmail e ∨ c.committer = .objEmail e) → e ∈ out.1)
    ∧ (∀ (pc : Nat → HttpResp (List CommitData)) (username : String)
        (prs : List PullReq) (s : Finset String) (pr : PullReq),
      pr ∈ prs → pr.userLogin = some username → (pc pr.number).status = 200 →
      ∀ c ∈ (pc pr.number).body, ∀ e : String,
        (c.author = .objEmail e ∨ c.committer = .objEmail e) →
        e ∈ (processPRPage pc username prs s).1)
    ∧ (∀ (fetch : Nat → HttpResp (List PullReq))
        (pc : Nat → HttpResp (List CommitData)) (username : String)
        (fuel page : Nat) (s : Finset String)
        (out : Finset String × List (Nat × Nat) × List Nat),
      (fetch page).status = 200 → (fetch page).body.isEmpty = false →
      prScanLoop fetch pc username (fuel + 1) page s = some out →
      ∀ pr ∈ (fetch page).body, pr.userLogin = some username →
      (pc pr.number).status = 200 →
      ∀ c ∈ (pc pr.number).body, ∀ e : String,
        (c.author = .objEmail e ∨ c.committer = .objEmail e) → e ∈ out.1)
    ∧ (∀ p : PersonField, p.extract = none ↔ ∀ e : String, p ≠ .objEmail e)
    ∧ (∀ (s : Finset String) (c : CommitData),
        c.author.extract = none → c.committer.extract = none →
        addCommitEmails s c = s)
    ∧ (∀ (c : CommitData) (e : String),
        c.author = .objEmail e → c.committer = .objEmail e →
        addCommitEmails ∅ c = ({e} : Finset String)) := by
  refine ⟨?_, ?_, ?_, ?_, ?_, ?_⟩
  · intro fetch fuel page s out h200 hne h c hc e he
    rw [commitScanLoop_step fetch fuel page s h200 hne] at h
    rcases hrec : commitScanLoop fetch fuel (page + 1)
        ((fetch page).body.foldl addCommitEmails s) with _ | pr
    · rw [hrec] at h; cases h
    · rw [hrec] at h
      rcases pr with ⟨efin, log⟩
      cases h
      refine commitScanLoop_mono fetch fuel _ _ _ hrec ?_
      refine mem_foldl_addCommitEmails _ s c e hc ?_
      rcases he with he | he <;> rw [he] <;> simp [PersonField.extract]
  · intro pc username prs s pr hmem hu h200 c hc e he
    refine mem_processPRPage_of_commit pc username prs s pr hmem hu h200 c hc e ?_
    rcases he with he | he <;> rw [he] <;> simp [PersonField.extract]
  · intro fetch pc username fuel page s out h200p hnep h pr hpr hu h200 c hc e he
    rw [prScanLoop_step fetch pc username fuel page s h200p hnep] at h
    rcases hrec : prScanLoop fetch pc username fuel (page + 1)
        (processPRPage pc username (fetch page).body s).1 with _ | tr
    · rw [hrec] at h; cases h
    · rw [hrec] at h
      rcases tr with ⟨efin, log, fl⟩
      cases h
      refine prScanLoop_mono fetch pc username fuel _ _ (efin, log, fl) hrec ?_
      refine mem_processPRPage_of_commit pc username _ s pr hpr hu h200 c hc e ?_
      rcases he with he | he <;> rw [he] <;> simp [PersonField.extract]
  · intro p
    cases p <;> simp [PersonField.extract]
  · intro s c h1 h2
    unfold addCommitEmails
    rw [h1, h2]
  · intro c e h1 h2
    unfold addCommitEmails
    rw [h1, h2]
    simp [PersonField.extract]

/-- Witness for claim C4: the one-commit oracle satisfies the hypotheses
of every part; the address a at x lands in the commit-scan loop's result
set, in the pull-request page result, and in the pull-request loop's
result set. -/
theorem claim_C4_witness :
    (oneCommitOracle 1).status = 200 ∧
    (oneCommitOracle 1).body.isEmpty = false ∧
    commitScanLoop oneCommitOracle 2 1 ∅ =
      some ({"a@x"}, [(100, 1), (100, 2)]) ∧
    "a@x" ∈ ({"a@x"} : Finset String) ∧
    "a@x" ∈ (processPRPage oneCommitOracle "alice" [⟨1, some "alice"⟩] ∅).1 ∧
    prScanLoop onePRPageOracle oneCommitOracle "alice" 2 1 ∅ =
      some ({"a@x"}, [(100, 1), (100, 2)], [1]) ∧
    "a@x" ∈ ({"a@x"} : Finset String) ∧
    addCommitEmails ∅ (CommitData.mk (.objEmail "a@x") (.objEmail "a@x")) = ({"a@x"} : Finset String) ∧
    addCommitEmails {"b@x"} (CommitData.mk .missing .objNoEmail) = ({"b@x"} : Finset String) := by
  refine ⟨rfl, rfl, by decide, ?_, ?_, by decide, ?_, ?_, ?_⟩
  · exact claim_C4.1 oneCommitOracle 1 1 ∅ ({"a@x"}, [(100, 1), (100, 2)])
      rfl rfl (by decide) ⟨.objEmail "a@x", .objEmail "a@x"⟩ (by decide)
      "a@x" (Or.inl rfl)
  · exact claim_C4.2.1 oneCommitOracle "alice" [⟨1, some "alice"⟩] ∅
      ⟨1, some "alice"⟩ (by decide) rfl rfl
      ⟨.objEmail "a@x", .objEmail "a@x"⟩ (by decide) "a@x" (Or.inl rfl)
  · exact claim_C4.2.2.1 onePRPageOracle oneCommitOracle "alice" 1 1 ∅
      ({"a@x"}, [(100, 1), (100, 2)], [1]) (by decide) (by decide) (by decide)
      ⟨1, some "alice"⟩ (by decide) rfl (by decide)
      ⟨.objEmail "a@x", .objEmail "a@x"⟩ (by decide) "a@x" (Or.inl rfl)
  · exact claim_C4.2.2.2.2.2 ⟨.objEmail "a@x", .objEmail "a@x"⟩ "a@x" rfl rfl
  · exact claim_C4.2.2.2.2.1 {"b@x"} ⟨.missing, .objNoEmail⟩ rfl rfl

/-- Claim C5: within a page of the pull-request scan, the commit lists
fetched are exactly those of the pull requests whose opener login is
string-equal to the authenticated login: the fetch log equals the numbers
of the filtered pull requests, and a number is fetched precisely when
some pull request of the page carries it together with a matching login
(String equality in the model is exact, hence case-sensitive). -/
theorem claim_C5 :
    (∀ (pc : Nat → HttpResp (List CommitData)) (username : String)
        (prs : List PullReq) (s : Finset String),
      (processPRPage pc username prs s).2 =
        (prs.filter (fun pr => pr.userLogin == some username)).map
          (fun pr => pr.number))
    ∧ (∀ (pc : Nat → HttpResp (List CommitData)) (username : String)
        (prs : List PullReq) (s : Finset String) (n : Nat),
      n ∈ (processPRPage pc username prs s).2 ↔
        ∃ pr ∈ prs, pr.userLogin = some username ∧ pr.number = n) := by
  constructor
  · intro pc username prs s
    unfold processPRPage
    rw [foldl_prStep_log]
    simp
  · intro pc username prs s n
    unfold processPRPage
    rw [foldl_prStep_log]
    simp only [List.nil_append, List.mem_map, List.mem_filter, beq_iff_eq]
    constructor
    · rintro ⟨pr, ⟨hmem, hlog⟩, hn⟩
      exact ⟨pr, hmem, hlog, hn⟩
    · rintro ⟨pr, hmem, hlog, hn⟩
      exact ⟨pr, ⟨hmem, hlog⟩, hn⟩

/-- Claim C9: a failing single commit-list fetch of one pull request
skips only that pull request: the per-pull-request step leaves the email
set unchanged on a non-200 status; removing such a pull request from a
page does not change the page's resulting email set; the accumulated set
is preserved (the loop result only grows); and a successfully listed
non-empty page always advances to the next page, whatever the inner
fetches returned. -/
theorem claim_C9 :
    (∀ (pc : Nat → HttpResp (List CommitData)) (acc : Finset String × List Nat)
        (pr : PullReq), (pc pr.number).status ≠ 200 → (prStep pc acc pr).1 = acc.1)
    ∧ (∀ (pc : Nat → HttpResp (List CommitData)) (username : String)
        (prs1 prs2 : List PullReq) (bad : PullReq) (s : Finset String),
      bad.userLogin = some username → (pc bad.number).status ≠ 200 →
      (processPRPage pc username (prs1 ++ bad :: prs2) s).1 =
        (processPRPage pc username (prs1 ++ prs2) s).1)
    ∧ (∀ (fetch : Nat → HttpResp (List PullReq))
        (pc : Nat → HttpResp (List CommitData)) (username : String)
        (fuel page : Nat) (s : Finset String)
        (out : Finset String × List (Nat × Nat) × List Nat),
      prScanLoop fetch pc username fuel page s = some out → s ⊆ out.1)
    ∧ (∀ (fetch : Nat → HttpResp (List PullReq))
        (pc : Nat → HttpResp (List CommitData)) (username : String)
        (fuel page : Nat) (s : Finset String),
      (fetch page).status = 200 → (fetch page).body.isEmpty = false →
      prScanLoop fetch pc username (fuel + 1) page s =
        match prScanLoop fetch pc username fuel (page + 1)
            (processPRPage pc username (fetch page).body s).1 with
        | none => none
        | some (e, log, fl) =>
            some (e, (100, page) :: log,
              (processPRPage pc username (fetch page).body s).2 ++ fl)) := by
  refine ⟨prStep_fst_of_fail, ?_, prScanLoop_mono, prScanLoop_step⟩
  intro pc username prs1 prs2 bad s hu hs
  unfold processPRPage
  rw [List.filter_append, List.filter_append, List.filter_cons]
  simp only [hu, beq_self_eq_true, if_true]
  rw [List.foldl_append, List.foldl_append, List.foldl_cons]
  rcases hmid : (prs1.filter (fun pr => pr.userLogin == some username)).foldl
      (prStep pc) (s, []) with ⟨m1, mlog⟩
  have hbad : prStep pc (m1, mlog) bad = (m1, mlog ++ [bad.number]) :=
    Prod.ext (prStep_fst_of_fail pc (m1, mlog) bad hs) (prStep_log pc (m1, mlog) bad)
  rw [hmid, hbad]
  exact foldl_prStep_fst_log_free pc _ m1 (mlog ++ [bad.number]) mlog

/-- Witness for claim C9 at concrete oracles: the fetch for pull request
1 fails with 403, so it alone is skipped, while the fetch for pull
request 2 succeeds and contributes its commit's address. -/
theorem claim_C9_witness :
    (errorCommitsOracle 1).status ≠ 200 ∧
    (prStep errorCommitsOracle (∅, []) ⟨1, some "alice"⟩).1 = ∅ ∧
    (processPRPage mixedPRCommitsOracle "alice"
        [⟨1, some "alice"⟩, ⟨2, some "alice"⟩] ∅).1 =
      (processPRPage mixedPRCommitsOracle "alice" [⟨2, some "alice"⟩] ∅).1 ∧
    ({"b@x"} : Finset String) ⊆ ({"b@x"} : Finset String) ∧
    prScanLoop onePRPageOracle errorCommitsOracle "alice" 2 1 ∅ =
      (match prScanLoop onePRPageOracle errorCommitsOracle "alice" 1 2
          (processPRPage errorCommitsOracle "alice" (onePRPageOracle 1).body ∅).1 with
       | none => none
       | some (e, log, fl) =>
           some (e, (100, 1) :: log,
             (processPRPage errorCommitsOracle "alice" (onePRPageOracle 1).body ∅).2 ++ fl)) := by
  refine ⟨by decide, ?_, ?_, ?_, ?_⟩
  · exact claim_C9.1 errorCommitsOracle (∅, []) ⟨1, some "alice"⟩ (by decide)
  · exact claim_C9.2.1 mixedPRCommitsOracle "alice" [] [⟨2, some "alice"⟩]
      ⟨1, some "alice"⟩ ∅ rfl (by decide)
  · exact claim_C9.2.2.1 emptyPRPageOracle errorCommitsOracle "alice" 1 1
      {"b@x"} ({"b@x"}, [(100, 1)], []) (by decide)
  · exact claim_C9.2.2.2 onePRPageOracle errorCommitsOracle "alice" 1 1 ∅
      rfl (by decide)

/-- Claim C6: when the first commit-listing page returns a non-200
status, the commit-scan loop stops at once returning the empty set and
raising nothing, and get_contribution_emails reduces to the pull-request
scan alone, run from the empty set: the failed commit scan neither
contributes emails nor prevents the pull-request scan. -/
theorem claim_C6 (cp : Nat → HttpResp (List CommitData))
    (pp : Nat → HttpResp (List PullReq)) (pc : Nat → HttpResp (List CommitData))
    (username : String) (fuel : Nat) (h : (cp 1).status ≠ 200) :
    commitScanLoop cp (fuel + 1) 1 ∅ = some (∅, [(100, 1)]) ∧
    get_contribution_emails cp pp pc username (fuel + 1) =
      (match prScanLoop pp pc username (fuel + 1) 1 ∅ with
       | none => none
       | some (e, plog, flog) => some ⟨e, [(100, 1)], plog, flog⟩) := by
  constructor
  · exact commitScanLoop_stop cp fuel 1 ∅ h
  · unfold get_contribution_emails
    rw [commitScanLoop_stop cp fuel 1 ∅ h]

/-- Witness for claim C6: a commit listing answering 403 on page 1
combined with an empty pull-request listing. -/
theorem claim_C6_witness :
    (errorCommitsOracle 1).status ≠ 200 ∧
    get_contribution_emails errorCommitsOracle emptyPRPageOracle errorCommitsOracle
        "alice" 1 =
      (match prScanLoop emptyPRPageOracle errorCommitsOracle "alice" 1 1 ∅ with
       | none => none
       | some (e, plog, flog) => some ⟨e, [(100, 1)], plog, flog⟩) :=
  ⟨by decide,
    (claim_C6 errorCommitsOracle emptyPRPageOracle errorCommitsOracle "alice" 0
      (by decide)).2⟩


/-! Arithmetic and log-shape lemmas for pagination. -/

theorem pagesFor_pos (n : Nat) : 1 ≤ pagesFor n := by
  unfold pagesFor
  omega

theorem pagesFor_drop (l : List α) (h : ¬l.isEmpty = true) :
    pagesFor l.length = pagesFor (l.drop 100).length + 1 := by
  have hlen : (l.drop 100).length = l.length - 100 := List.length_drop 100 l
  have hpos : 0 < l.length := by
    cases l with
    | nil => simp at h
    | cons a t => simp
  unfold pagesFor
  omega

theorem chunk_one (l : List α) : chunk l 1 = l.take 100 := by
  simp [chunk]

theorem chunk_shift (l : List α) (i : Nat) :
    chunk l (i + 2) = chunk (l.drop 100) (i + 1) := by
  unfold chunk
  rw [List.drop_drop]
  congr 2
  omega

theorem take100_not_isEmpty (l : List α) (h : ¬l.isEmpty = true) :
    ¬(l.take 100).isEmpty = true := by
  cases l with
  | nil => simp at h
  | cons a t => simp [List.take]

theorem pageLog_one (p0 : Nat) : pageLog p0 1 = [(100, p0)] := by
  simp [pageLog, List.range_succ]

theorem pageLog_succ (p0 k : Nat) :
    pageLog p0 (k + 1) = (100, p0) :: pageLog (p0 + 1) k := by
  unfold pageLog
  rw [List.range_succ_eq_map]
  simp only [List.map_cons, List.map_map, Nat.add_zero]
  congr 1
  apply List.map_congr_left
  intro i _
  have hi : p0 + Nat.succ i = p0 + 1 + i := by omega
  simp [Function.comp, hi]

theorem shifted_oracle (l : List α) (f : Nat → HttpResp (List α)) (p0 : Nat)
    (hf : ∀ i, f (p0 + i) = ⟨200, chunk l (i + 1)⟩) :
    ∀ i, f (p0 + 1 + i) = ⟨200, chunk (l.drop 100) (i + 1)⟩ := by
  intro i
  have h1 : p0 + 1 + i = p0 + (i + 1) := by omega
  rw [h1, hf (i + 1), ← chunk_shift]

/-! Exhaustion of a finite listing: each pagination loop, run against an
oracle serving the 100-item slices of a finite list, consumes exactly
pagesFor requests, at pages p0, p0 + 1, ..., and returns the whole list
(filtered or folded as the loop's body dictates). -/

theorem getUserReposLoop_slicing (fuel : Nat) :
    ∀ (l : List Repo) (f : Nat → HttpResp (List Repo)) (p0 : Nat) (acc : List Repo),
    (∀ i, f (p0 + i) = ⟨200, chunk l (i + 1)⟩) → pagesFor l.length ≤ fuel →
    getUserReposLoop f fuel p0 acc =
      some (.ok (acc ++ l), pageLog p0 (pagesFor l.length)) := by
  induction fuel with
  | zero =>
    intro l f p0 acc hf hfuel
    exact absurd hfuel (by have := pagesFor_pos l.length; omega)
  | succ n ih =>
    intro l f p0 acc hf hfuel
    have hp0 : f p0 = ⟨200, l.take 100⟩ := by
      have h0 := hf 0
      rw [Nat.add_zero] at h0
      rw [h0, chunk_one]
    have hErr : isHttpError 200 = false := rfl
    by_cases hl : l.isEmpty = true
    · have hnil : l = [] := by cases l with | nil => rfl | cons a t => simp at hl
      subst hnil
      rw [getUserReposLoop]
      simp [hp0, hErr, pagesFor, pageLog, List.range_succ]
    · rw [getUserReposLoop]
      simp only [hp0, hErr, Bool.false_eq_true, if_false]
      have hne := take100_not_isEmpty l hl
      simp only [hne, if_false]
      rw [ih (l.drop 100) f (p0 + 1) (acc ++ l.take 100) (shifted_oracle l f p0 hf)
        (by have := pagesFor_drop l hl; omega)]
      rw [pagesFor_drop l hl, pageLog_succ]
      simp [List.append_assoc, List.take_append_drop]

theorem orgRepoLoop_slicing (fuel : Nat) :
    ∀ (l : List Repo) (f : Nat → HttpResp (List Repo)) (p0 : Nat) (acc : List Repo),
    (∀ i, f (p0 + i) = ⟨200, chunk l (i + 1)⟩) → pagesFor l.length ≤ fuel →
    orgRepoLoop f fuel p0 acc =
      some (.ok (acc ++ l.filter Repo.hasPushAccess), pageLog p0 (pagesFor l.length)) := by
  induction fuel with
  | zero =>
    intro l f p0 acc hf hfuel
    exact absurd hfuel (by have := pagesFor_pos l.length; omega)
  | succ n ih =>
    intro l f p0 acc hf hfuel
    have hp0 : f p0 = ⟨200, l.take 100⟩ := by
      have h0 := hf 0
      rw [Nat.add_zero] at h0
      rw [h0, chunk_one]
    have hErr : isHttpError 200 = false := rfl
    by_cases hl : l.isEmpty = true
    · have hnil : l = [] := by cases l with | nil => rfl | cons a t => simp at hl
      subst hnil
      rw [orgRepoLoop]
      simp [hp0, hErr, pagesFor, pageLog, List.range_succ]
    · rw [orgRepoLoop]
      simp only [hp0, hErr, Bool.false_eq_true, if_false]
      have hne := take100_not_isEmpty l hl
      simp only [hne, if_false]
      rw [ih (l.drop 100) f (p0 + 1) (acc ++ (l.take 100).filter Repo.hasPushAccess)
        (shifted_oracle l f p0 hf) (by have := pagesFor_drop l hl; omega)]
      rw [pagesFor_drop l hl, pageLog_succ]
      have hfe : acc ++ (l.take 100).filter Repo.hasPushAccess
          ++ (l.drop 100).filter Repo.hasPushAccess
          = acc ++ l.filter Repo.hasPushAccess := by
        rw [List.append_assoc, ← List.filter_append, List.take_append_drop]
      simp [hfe]

theorem commitScanLoop_slicing (fuel : Nat) :
    ∀ (l : List CommitData) (f : Nat → HttpResp (List CommitData)) (p0 : Nat)
    (s : Finset String),
    (∀ i, f (p0 + i) = ⟨200, chunk l (i + 1)⟩) → pagesFor l.length ≤ fuel →
    commitScanLoop f fuel p0 s =
      some (l.foldl addCommitEmails s, pageLog p0 (pagesFor l.length)) := by
  induction fuel with
  | zero =>
    intro l f p0 s hf hfuel
    exact absurd hfuel (by have := pagesFor_pos l.length; omega)
  | succ n ih =>
    intro l f p0 s hf hfuel
    have hp0 : f p0 = ⟨200, l.take 100⟩ := by
      have h0 := hf 0
      rw [Nat.add_zero] at h0
      rw [h0, chunk_one]
    by_cases hl : l.isEmpty = true
    · have hnil : l = [] := by cases l with | nil => rfl | cons a t => simp at hl
      subst hnil
      rw [commitScanLoop]
      simp [hp0, pagesFor, pageLog, List.range_succ]
    · rw [commitScanLoop]
      simp only [hp0, ne_eq, not_true_eq_false, if_false]
      have hne := take100_not_isEmpty l hl
      simp only [hne, if_false]
      rw [ih (l.drop 100) f (p0 + 1) ((l.take 100).foldl addCommitEmails s)
        (shifted_oracle l f p0 hf) (by have := pagesFor_drop l hl; omega)]
      rw [pagesFor_drop l hl, pageLog_succ]
      have hfe : (l.drop 100).foldl addCommitEmails ((l.take 100).foldl addCommitEmails s)
          = l.foldl addCommitEmails s := by
        rw [← List.foldl_append, List.take_append_drop]
      simp [hfe]

theorem prScanLoop_slicing (fuel : Nat) :
    ∀ (l : List PullReq) (f : Nat → HttpResp (List PullReq))
    (pc : Nat → HttpResp (List CommitData)) (username : String) (p0 : Nat)
    (s : Finset String),
    (∀ i, f (p0 + i) = ⟨200, chunk l (i + 1)⟩) → pagesFor l.length ≤ fuel →
    ∃ e fl, prScanLoop f pc username fuel p0 s =
      some (e, pageLog p0 (pagesFor l.length), fl) := by
  induction fuel with
  | zero =>
    intro l f pc username p0 s hf hfuel
    exact absurd hfuel (by have := pagesFor_pos l.length; omega)
  | succ n ih =>
    intro l f pc username p0 s hf hfuel
    have hp0 : f p0 = ⟨200, l.take 100⟩ := by
      have h0 := hf 0
      rw [Nat.add_zero] at h0
      rw [h0, chunk_one]
    by_cases hl : l.isEmpty = true
    · have hnil : l = [] := by cases l with | nil => rfl | cons a t => simp at hl
      subst hnil
      refine ⟨s, [], ?_⟩
      rw [prScanLoop]
      simp [hp0, pagesFor, pageLog, List.range_succ]
    · obtain ⟨e, fl, hrec⟩ := ih (l.drop 100) f pc username (p0 + 1)
        (processPRPage pc username (l.take 100) s).1
        (shifted_oracle l f p0 hf) (by have := pagesFor_drop l hl; omega)
      refine ⟨e, (processPRPage pc username (l.take 100) s).2 ++ fl, ?_⟩
      rw [prScanLoop]
      simp only [hp0, ne_eq, not_true_eq_false, if_false]
      have hne := take100_not_isEmpty l hl
      simp only [hne, if_false]
      rw [hrec]
      rw [pagesFor_drop l hl, pageLog_succ]
      simp


theorem slicingOracle_spec (l : List α) :
    ∀ i, slicingOracle l (1 + i) = ⟨200, chunk l (i + 1)⟩ := by
  intro i
  unfold slicingOracle
  rw [Nat.add_comm 1 i]

/-- Claim C3: over a complete organization repository listing served page
by page, the enumeration keeps exactly the entries whose permissions
object reports push true: the loop returns the push-filtered listing,
get_org_repos returns it for a single organization, membership in the
output is equivalent to membership in the listing together with push
access, and push access holds precisely when a permissions object is
present whose push key holds true (so push false, a missing permissions
object, and a permissions object without a push key are all excluded). -/
theorem claim_C3 (l : List Repo) (fuel : Nat) (hfuel : pagesFor l.length ≤ fuel) :
    orgRepoLoop (slicingOracle l) fuel 1 [] =
      some (.ok (l.filter Repo.hasPushAccess), pageLog 1 (pagesFor l.length)) ∧
    get_org_repos ⟨200, ["acme"]⟩ (fun _ => slicingOracle l) fuel =
      some (.ok (l.filter Repo.hasPushAccess)) ∧
    (∀ r : Repo, r ∈ l.filter Repo.hasPushAccess ↔ r ∈ l ∧ r.hasPushAccess = true) ∧
    (∀ r : Repo, r.hasPushAccess = true ↔
      ∃ p : PermObj, r.permissions = some p ∧ p.push = some true) := by
  have hloop := orgRepoLoop_slicing fuel l (slicingOracle l) 1 []
    (slicingOracle_spec l) hfuel
  simp only [List.nil_append] at hloop
  refine ⟨hloop, ?_, ?_, ?_⟩
  · unfold get_org_repos
    have hErr : isHttpError 200 = false := rfl
    simp only [hErr, Bool.false_eq_true, if_false]
    simp only [getOrgReposGo]
    rw [hloop]
  · intro r
    simp [List.mem_filter]
  · intro r
    rcases r with ⟨o, nm, perm⟩
    rcases perm with _ | p
    · simp [Repo.hasPushAccess]
    · rcases p with ⟨pu⟩
      rcases pu with _ | b
      · simp [Repo.hasPushAccess]
      · cases b <;> simp [Repo.hasPushAccess]

/-- Witness for claim C3 on a concrete two-entry listing: the entry with
push true is kept, the entry with push false is dropped. -/
theorem claim_C3_witness :
    pagesFor demoOrgListing.length ≤ 2 ∧
    orgRepoLoop (slicingOracle demoOrgListing) 2 1 [] =
      some (.ok (demoOrgListing.filter Repo.hasPushAccess),
        pageLog 1 (pagesFor demoOrgListing.length)) ∧
    get_org_repos ⟨200, ["acme"]⟩ (fun _ => slicingOracle demoOrgListing) 2 =
      some (.ok (demoOrgListing.filter Repo.hasPushAccess)) ∧
    demoOrgListing.filter Repo.hasPushAccess = [demoRepoPush] :=
  ⟨by decide, (claim_C3 demoOrgListing 2 (by decide)).1,
    (claim_C3 demoOrgListing 2 (by decide)).2.1, by decide⟩

/-- Claim C8: each of the four pagination loops (owned repositories,
per-organization repositories, commits, pull requests), run against an
oracle serving a finite listing in 100-item slices, issues exactly the
requests (100, 1), (100, 2), ..., that is, pages of size 100 starting at
page 1 and incremented by one, and stops after pagesFor many requests,
where pagesFor n = ceil (n / 100) + 1, so at most ceil (n / 100) + 1
requests reach the terminating empty page; and each loop ends
immediately, after the single request of the current page, when a page
answers with an error status. -/
theorem claim_C8 :
    (∀ (l : List Repo) (fuel : Nat), pagesFor l.length ≤ fuel →
      get_user_repos (slicingOracle l) fuel =
        some (.ok l, pageLog 1 (pagesFor l.length)))
    ∧ (∀ (l : List Repo) (acc : List Repo) (fuel : Nat), pagesFor l.length ≤ fuel →
      orgRepoLoop (slicingOracle l) fuel 1 acc =
        some (.ok (acc ++ l.filter Repo.hasPushAccess), pageLog 1 (pagesFor l.length)))
    ∧ (∀ (l : List CommitData) (s : Finset String) (fuel : Nat),
        pagesFor l.length ≤ fuel →
      commitScanLoop (slicingOracle l) fuel 1 s =
        some (l.foldl addCommitEmails s, pageLog 1 (pagesFor l.length)))
    ∧ (∀ (l : List PullReq) (pc : Nat → HttpResp (List CommitData))
        (username : String) (s : Finset String) (fuel : Nat),
        pagesFor l.length ≤ fuel →
      (prScanLoop (slicingOracle l) pc username fuel 1 s).map
          (fun out => out.2.1) =
        some (pageLog 1 (pagesFor l.length)))
    ∧ (∀ n : Nat, pagesFor n = (n + 99) / 100 + 1 ∧
        (pageLog 1 (pagesFor n)).length = pagesFor n)
    ∧ (∀ (f : Nat → HttpResp (List Repo)) (fuel page : Nat) (acc : List Repo),
        isHttpError (f page).status = true →
      getUserReposLoop f (fuel + 1) page acc =
        some (.error (f page).status, [(100, page)])
      ∧ orgRepoLoop f (fuel + 1) page acc =
        some (.error (f page).status, [(100, page)]))
    ∧ (∀ (f : Nat → HttpResp (List CommitData)) (fuel page : Nat)
        (s : Finset String), (f page).status ≠ 200 →
      commitScanLoop f (fuel + 1) page s = some (s, [(100, page)]))
    ∧ (∀ (f : Nat → HttpResp (List PullReq))
        (pc : Nat → HttpResp (List CommitData)) (username : String)
        (fuel page : Nat) (s : Finset String), (f page).status ≠ 200 →
      prScanLoop f pc username (fuel + 1) page s = some (s, [(100, page)], [])) := by
  refine ⟨?_, ?_, ?_, ?_, ?_, ?_, ?_, ?_⟩
  · intro l fuel hfuel
    unfold get_user_repos
    have h := getUserReposLoop_slicing fuel l (slicingOracle l) 1 []
      (slicingOracle_spec l) hfuel
    simpa using h
  · intro l acc fuel hfuel
    exact orgRepoLoop_slicing fuel l (slicingOracle l) 1 acc
      (slicingOracle_spec l) hfuel
  · intro l s fuel hfuel
    exact commitScanLoop_slicing fuel l (slicingOracle l) 1 s
      (slicingOracle_spec l) hfuel
  · intro l pc username s fuel hfuel
    obtain ⟨e, fl, h⟩ := prScanLoop_slicing fuel l (slicingOracle l) pc username 1 s
      (slicingOracle_spec l) hfuel
    rw [h]
    rfl
  · intro n
    exact ⟨rfl, by simp [pageLog]⟩
  · intro f fuel page acc h
    constructor
    · rw [getUserReposLoop]
      simp [h]
    · rw [orgRepoLoop]
      simp [h]
  · intro f fuel page s h
    exact commitScanLoop_stop f fuel page s h
  · intro f pc username fuel page s h
    exact prScanLoop_stop f pc username fuel page s h

/-- Witness for claim C8 at concrete inputs: the two-entry listing is
exhausted in two requests for the repository loops, the one-commit and
one-pull-request listings in two requests for the scanner loops, and
each loop stops after one request on a 403 response. -/
theorem claim_C8_witness :
    pagesFor demoOrgListing.length ≤ 2 ∧
    get_user_repos (slicingOracle demoOrgListing) 2 =
      some (.ok demoOrgListing, pageLog 1 (pagesFor demoOrgListing.length)) ∧
    orgRepoLoop (slicingOracle demoOrgListing) 2 1 [] =
      some (.ok ([] ++ demoOrgListing.filter Repo.hasPushAccess),
        pageLog 1 (pagesFor demoOrgListing.length)) ∧
    commitScanLoop (slicingOracle [CommitData.mk (.objEmail "a@x") (.objEmail "a@x")]) 2 1 ∅ =
      some ([CommitData.mk (.objEmail "a@x") (.objEmail "a@x")].foldl addCommitEmails ∅,
        pageLog 1 (pagesFor 1)) ∧
    (prScanLoop (slicingOracle [PullReq.mk 1 (some "alice")]) errorCommitsOracle
        "alice" 2 1 ∅).map (fun out => out.2.1) = some (pageLog 1 (pagesFor 1)) ∧
    isHttpError (errorRepoPageOracle 1).status = true ∧
    getUserReposLoop errorRepoPageOracle 1 1 [] = some (.error 403, [(100, 1)]) ∧
    orgRepoLoop errorRepoPageOracle 1 1 [] = some (.error 403, [(100, 1)]) ∧
    commitScanLoop errorCommitsOracle 1 1 ∅ = some (∅, [(100, 1)]) ∧
    prScanLoop errorPRPageOracle errorCommitsOracle "alice" 1 1 ∅ =
      some (∅, [(100, 1)], []) := by
  refine ⟨by decide, ?_, ?_, ?_, ?_, by decide, ?_, ?_, ?_, ?_⟩
  · exact claim_C8.1 demoOrgListing 2 (by decide)
  · exact claim_C8.2.1 demoOrgListing [] 2 (by decide)
  · exact claim_C8.2.2.1 [CommitData.mk (.objEmail "a@x") (.objEmail "a@x")] ∅ 2 (by decide)
  · exact claim_C8.2.2.2.1 [PullReq.mk 1 (some "alice")] errorCommitsOracle "alice" ∅ 2 (by decide)
  · exact (claim_C8.2.2.2.2.2.1 errorRepoPageOracle 0 1 [] (by decide)).1
  · exact (claim_C8.2.2.2.2.2.1 errorRepoPageOracle 0 1 [] (by decide)).2
  · exact claim_C8.2.2.2.2.2.2.1 errorCommitsOracle 0 1 ∅ (by decide)
  · exact claim_C8.2.2.2.2.2.2.2 errorPRPageOracle errorCommitsOracle "alice" 0 1 ∅ (by decide)


/-! Lemmas about the aggregation loop of main (dict model and fold). -/

theorem mem_dictAssign_self (d : List (String × Finset String)) (k : String)
    (v : Finset String) : (k, v) ∈ dictAssign d k v := by
  induction d with
  | nil => simp [dictAssign]
  | cons q rest ih =>
    unfold dictAssign
    by_cases hq : q.1 = k
    · rw [if_pos hq]
      exact List.mem_cons_self _ _
    · rw [if_neg hq]
      exact List.mem_cons_of_mem q ih

theorem mem_dictAssign_of_ne (d : List (String × Finset String))
    (k2 : String) (v2 : Finset String) (k : String) (v : Finset String)
    (hne : k2 ≠ k) (h : (k, v) ∈ d) : (k, v) ∈ dictAssign d k2 v2 := by
  induction d with
  | nil => cases h
  | cons q rest ih =>
    unfold dictAssign
    rcases List.mem_cons.mp h with hh | hm
    · have hq : ¬(q.1 = k2) := by
        rw [← hh]
        exact fun hc => hne hc.symm
      rw [if_neg hq]
      rw [← hh]
      exact List.mem_cons_self _ _
    · by_cases hq : q.1 = k2
      · rw [if_pos hq]
        exact List.mem_cons_of_mem _ hm
      · rw [if_neg hq]
        exact List.mem_cons_of_mem q (ih hm)

theorem mem_dictAssign (d : List (String × Finset String)) (k : String)
    (v : Finset String) (p : String × Finset String)
    (h : p ∈ dictAssign d k v) : p ∈ d ∨ p = (k, v) := by
  induction d with
  | nil =>
    simp [dictAssign] at h
    right
    exact h
  | cons q rest ih =>
    unfold dictAssign at h
    by_cases hq : q.1 = k
    · rw [if_pos hq] at h
      rcases List.mem_cons.mp h with hh | hm
      · right; exact hh
      · left; exact List.mem_cons_of_mem q hm
    · rw [if_neg hq] at h
      rcases List.mem_cons.mp h with hh | hm
      · left
        rw [hh]
        exact List.mem_cons_self q rest
      · rcases ih hm with h1 | h1
        · left; exact List.mem_cons_of_mem q h1
        · right; exact h1

theorem dictLookup_assign_self (d : List (String × Finset String)) (k : String)
    (v : Finset String) : dictLookup (dictAssign d k v) k = some v := by
  induction d with
  | nil => simp [dictAssign, dictLookup]
  | cons q rest ih =>
    unfold dictAssign
    by_cases hq : q.1 = k
    · rw [if_pos hq]
      simp [dictLookup]
    · rw [if_neg hq]
      unfold dictLookup
      rw [if_neg hq]
      exact ih

theorem dictLookup_assign_of_ne (d : List (String × Finset String))
    (k2 : String) (v2 : Finset String) (k : String) (hne : k2 ≠ k) :
    dictLookup (dictAssign d k2 v2) k = dictLookup d k := by
  induction d with
  | nil => simp [dictAssign, dictLookup, hne]
  | cons q rest ih =>
    unfold dictAssign
    by_cases hq : q.1 = k2
    · rw [if_pos hq]
      unfold dictLookup
      rw [if_neg hne]
      have hqk : ¬(q.1 = k) := by
        rw [hq]
        exact hne
      rw [if_neg hqk]
    · rw [if_neg hq]
      unfold dictLookup
      by_cases hqk : q.1 = k
      · rw [if_pos hqk, if_pos hqk]
      · rw [if_neg hqk, if_neg hqk]
        exact ih

theorem mem_processRepos_allEmails (scans : List (RepoRef × Finset String))
    (st : AggState) (e : String) :
    (e ∈ (scans.foldl scanStep st).allEmails ↔
      e ∈ st.allEmails ∨ ∃ rs ∈ scans, e ∈ rs.2) := by
  induction scans generalizing st with
  | nil => simp
  | cons hd tl ih =>
    simp only [List.foldl_cons]
    rw [ih]
    unfold scanStep
    by_cases h : hd.2 = ∅
    · rw [if_pos h]
      simp only [List.mem_cons]
      constructor
      · rintro (he | ⟨rs, hm, hrs⟩)
        · exact Or.inl he
        · exact Or.inr ⟨rs, Or.inr hm, hrs⟩
      · rintro (he | ⟨rs, hm | hm, hrs⟩)
        · exact Or.inl he
        · rw [hm, h] at hrs
          exact absurd hrs (Finset.not_mem_empty e)
        · exact Or.inr ⟨rs, hm, hrs⟩
    · rw [if_neg h]
      simp only [Finset.mem_union, List.mem_cons]
      constructor
      · rintro ((he | he) | ⟨rs, hm, hrs⟩)
        · exact Or.inl he
        · exact Or.inr ⟨hd, Or.inl rfl, he⟩
        · exact Or.inr ⟨rs, Or.inr hm, hrs⟩
      · rintro (he | ⟨rs, hm | hm, hrs⟩)
        · exact Or.inl (Or.inl he)
        · rw [hm] at hrs
          exact Or.inl (Or.inr hrs)
        · exact Or.inr ⟨rs, hm, hrs⟩

theorem processRepos_global_mem (scans : List (RepoRef × Finset String))
    (e : String) :
    e ∈ (processRepos scans).allEmails ↔ ∃ rs ∈ scans, e ∈ rs.2 := by
  unfold processRepos
  rw [mem_processRepos_allEmails]
  simp

theorem processRepos_entries (scans : List (RepoRef × Finset String))
    (st : AggState) (p : String × Finset String)
    (h : p ∈ (scans.foldl scanStep st).repoEmails) :
    p ∈ st.repoEmails ∨ ∃ rs ∈ scans, rs.2 ≠ ∅ ∧ p = (rs.1.key, rs.2) := by
  induction scans generalizing st with
  | nil => exact Or.inl h
  | cons hd tl ih =>
    simp only [List.foldl_cons] at h
    rcases ih (scanStep st hd) h with h1 | h1
    · unfold scanStep at h1
      by_cases he : hd.2 = ∅
      · rw [if_pos he] at h1
        exact Or.inl h1
      · rw [if_neg he] at h1
        simp only at h1
        rcases mem_dictAssign _ _ _ p h1 with h2 | h2
        · exact Or.inl h2
        · exact Or.inr ⟨hd, List.mem_cons_self hd tl, he, h2⟩
    · rcases h1 with ⟨rs, hmem, hne, hp⟩
      exact Or.inr ⟨rs, List.mem_cons_of_mem hd hmem, hne, hp⟩

theorem processRepos_keep (scans : List (RepoRef × Finset String))
    (st : AggState) (k : String) (v : Finset String)
    (hk : ∀ rs ∈ scans, rs.1.key ≠ k) (h : (k, v) ∈ st.repoEmails) :
    (k, v) ∈ (scans.foldl scanStep st).repoEmails := by
  induction scans generalizing st with
  | nil => exact h
  | cons hd tl ih =>
    simp only [List.foldl_cons]
    refine ih _ (fun rs hm => hk rs (List.mem_cons_of_mem hd hm)) ?_
    unfold scanStep
    by_cases he : hd.2 = ∅
    · rw [if_pos he]
      exact h
    · rw [if_neg he]
      exact mem_dictAssign_of_ne _ _ _ _ _ (hk hd (List.mem_cons_self hd tl)) h

theorem processRepos_lookup_keep (scans : List (RepoRef × Finset String))
    (st : AggState) (k : String) (hk : ∀ rs ∈ scans, rs.1.key ≠ k) :
    dictLookup (scans.foldl scanStep st).repoEmails k = dictLookup st.repoEmails k := by
  induction scans generalizing st with
  | nil => rfl
  | cons hd tl ih =>
    simp only [List.foldl_cons]
    rw [ih _ (fun rs hm => hk rs (List.mem_cons_of_mem hd hm))]
    unfold scanStep
    by_cases he : hd.2 = ∅
    · rw [if_pos he]
    · rw [if_neg he]
      exact dictLookup_assign_of_ne _ _ _ _ (hk hd (List.mem_cons_self hd tl))

/-- Counterexample to claim C1: processing the same repository key twice
with two different non-empty scan results (two HTTP interactions with
the same repository need not agree) leaves the global set holding both
addresses while the mapping holds only the second one, so the address of
the first scan is in the global set but in no entry of the mapping. -/
theorem claim_C1_counterexample :
    processRepos [(⟨"a", "b"⟩, {"e1"}), (⟨"a", "b"⟩, {"e2"})] =
      ⟨{"e1", "e2"}, [("a/b", {"e2"})]⟩ ∧
    "e1" ∈ ({"e1", "e2"} : Finset String) ∧
    "e1" ∉ ({"e2"} : Finset String) := by
  refine ⟨by decide, by decide, by decide⟩

/-- Claim C1 (amended): the global set equals the union of all scan
results; every email of a per-repository entry is in the global set;
every entry stems from a non-empty scan result whose key and set it
carries (so only repositories whose scan returned a non-empty set have
an entry); and when no two processed repository references share an
owner/name key, the global set equals the union of the per-repository
entries. Without the distinct-key hypothesis only the inclusion of the
entries in the global set holds, as the counterexample shows. -/
theorem claim_C1_amended :
    (∀ (scans : List (RepoRef × Finset String)) (e : String),
      e ∈ (processRepos scans).allEmails ↔ ∃ rs ∈ scans, e ∈ rs.2)
    ∧ (∀ (scans : List (RepoRef × Finset String)) (p : String × Finset String),
      p ∈ (processRepos scans).repoEmails →
        ∃ rs ∈ scans, rs.2 ≠ ∅ ∧ p = (rs.1.key, rs.2))
    ∧ (∀ (scans : List (RepoRef × Finset String)) (p : String × Finset String)
        (e : String), p ∈ (processRepos scans).repoEmails → e ∈ p.2 →
      e ∈ (processRepos scans).allEmails)
    ∧ (∀ scans : List (RepoRef × Finset String),
        (scans.map (fun rs => rs.1.key)).Nodup →
      ∀ e : String, (e ∈ (processRepos scans).allEmails ↔
        ∃ p ∈ (processRepos scans).repoEmails, e ∈ p.2)) := by
  have hentries : ∀ (scans : List (RepoRef × Finset String))
      (p : String × Finset String), p ∈ (processRepos scans).repoEmails →
      ∃ rs ∈ scans, rs.2 ≠ ∅ ∧ p = (rs.1.key, rs.2) := by
    intro scans p h
    rcases processRepos_entries scans ⟨∅, []⟩ p h with h1 | h1
    · cases h1
    · exact h1
  have hsub : ∀ (scans : List (RepoRef × Finset String))
      (p : String × Finset String) (e : String),
      p ∈ (processRepos scans).repoEmails → e ∈ p.2 →
      e ∈ (processRepos scans).allEmails := by
    intro scans p e hp he
    rcases hentries scans p hp with ⟨rs, hmem, hne, hkey⟩
    rw [processRepos_global_mem]
    refine ⟨rs, hmem, ?_⟩
    rw [hkey] at he
    exact he
  refine ⟨processRepos_global_mem, hentries, hsub, ?_⟩
  intro scans hnodup e
  constructor
  · intro he
    rcases (processRepos_global_mem scans e).mp he with ⟨rs, hmem, hrs⟩
    obtain ⟨l1, l2, hdec⟩ := List.append_of_mem hmem
    have hl2 : ∀ rs2 ∈ l2, rs2.1.key ≠ rs.1.key := by
      intro rs2 hm2 hc
      rw [hdec, List.map_append, List.map_cons] at hnodup
      have h2 := hnodup.of_append_right
      rw [List.nodup_cons] at h2
      exact h2.1 (hc ▸ List.mem_map_of_mem (fun x => x.1.key) hm2)
    have hne : rs.2 ≠ ∅ := by
      intro hc
      rw [hc] at hrs
      exact Finset.not_mem_empty e hrs
    refine ⟨(rs.1.key, rs.2), ?_, hrs⟩
    unfold processRepos
    rw [hdec, List.foldl_append, List.foldl_cons]
    refine processRepos_keep l2 _ _ _ hl2 ?_
    unfold scanStep
    rw [if_neg hne]
    exact mem_dictAssign_self _ _ _
  · rintro ⟨p, hp, he⟩
    exact hsub scans p e hp he

/-- Witness for claim C1 at a concrete two-repository trace with
distinct keys: both directions of the amended equivalence hold and the
recorded entry's address is in the global set. -/
theorem claim_C1_witness :
    ((demoTraceDistinct.map (fun rs => rs.1.key)).Nodup) ∧
    ("e1" ∈ (processRepos demoTraceDistinct).allEmails ↔
      ∃ p ∈ (processRepos demoTraceDistinct).repoEmails, "e1" ∈ p.2) ∧
    ("e1" ∈ (processRepos demoTraceDistinct).allEmails) := by
  obtain ⟨hg, hent, hsub, hiff⟩ := claim_C1_amended
  exact ⟨by decide, hiff demoTraceDistinct (by decide) "e1",
    hsub demoTraceDistinct ("a/b", {"e1"}) "e1" (by decide) (by decide)⟩

/-- Claim C10: when the repository sequence holds two references with
the same owner/name key, both of whose scans returned non-empty sets,
and no later reference reuses the key, the mapping afterwards holds
exactly the second scan's set under that key (dict assignment replaced
the first entry), while the global set contains both scans' emails. -/
theorem claim_C10 (l1 l2 l3 : List (RepoRef × Finset String))
    (r1 r2 : RepoRef) (s1 s2 : Finset String)
    (h1 : s1 ≠ ∅) (h2 : s2 ≠ ∅) (hkey : r1.key = r2.key)
    (hl3 : ∀ rs ∈ l3, rs.1.key ≠ r2.key) :
    dictLookup (processRepos (l1 ++ (r1, s1) :: l2 ++ (r2, s2) :: l3)).repoEmails
      r2.key = some s2 ∧
    s1 ⊆ (processRepos (l1 ++ (r1, s1) :: l2 ++ (r2, s2) :: l3)).allEmails ∧
    s2 ⊆ (processRepos (l1 ++ (r1, s1) :: l2 ++ (r2, s2) :: l3)).allEmails := by
  have hmem1 : (r1, s1) ∈ l1 ++ (r1, s1) :: l2 ++ (r2, s2) :: l3 :=
    List.mem_append.mpr (Or.inl (List.mem_append.mpr (Or.inr (List.mem_cons_self _ _))))
  have hmem2 : (r2, s2) ∈ l1 ++ (r1, s1) :: l2 ++ (r2, s2) :: l3 :=
    List.mem_append.mpr (Or.inr (List.mem_cons_self _ _))
  refine ⟨?_, ?_, ?_⟩
  · unfold processRepos
    rw [List.foldl_append, List.foldl_cons]
    rw [processRepos_lookup_keep l3 _ _ hl3]
    unfold scanStep
    rw [if_neg h2]
    exact dictLookup_assign_self _ _ _
  · intro e he
    rw [processRepos_global_mem]
    exact ⟨(r1, s1), hmem1, he⟩
  · intro e he
    rw [processRepos_global_mem]
    exact ⟨(r2, s2), hmem2, he⟩

/-- Witness for claim C10 at the concrete duplicate-key trace: the
mapping ends with the second set under the shared key and the global set
contains both addresses. -/
theorem claim_C10_witness :
    ({"e1"} : Finset String) ≠ ∅ ∧ ({"e2"} : Finset String) ≠ ∅ ∧
    dictLookup (processRepos ([] ++ (⟨"a", "b"⟩, ({"e1"} : Finset String)) :: []
        ++ (⟨"a", "b"⟩, ({"e2"} : Finset String)) :: [])).repoEmails
      (RepoRef.mk "a" "b").key = some {"e2"} ∧
    ({"e1"} : Finset String) ⊆ (processRepos ([] ++ (⟨"a", "b"⟩, ({"e1"} : Finset String)) :: []
        ++ (⟨"a", "b"⟩, ({"e2"} : Finset String)) :: [])).allEmails :=
  ⟨by decide, by decide,
    (claim_C10 [] [] [] ⟨"a", "b"⟩ ⟨"a", "b"⟩ {"e1"} {"e2"} (by decide) (by decide)
      rfl (by simp)).1,
    (claim_C10 [] [] [] ⟨"a", "b"⟩ ⟨"a", "b"⟩ {"e1"} {"e2"} (by decide) (by decide)
      rfl (by simp)).2.1⟩


/-- Counterexample to claim C2: with two organizations, of which acme's
first repository page fails with 403 while beta would serve one
push-accessible repository, get_org_repos propagates the failure as an
exception instead of treating acme as exhausted and continuing with
beta: the result is the error, not the ok outcome the claim predicts. -/
theorem claim_C2_counterexample :
    get_org_repos ⟨200, ["acme", "beta"]⟩ cexOrgPage 2 = some (.error 403) ∧
    get_org_repos ⟨200, ["acme", "beta"]⟩ cexOrgPage 2 ≠ some (.ok [betaRepo]) := by
  refine ⟨by decide, by decide⟩

/-- Claim C2 (amended): a per-page HTTP failure while listing an
organization's repositories is raised by raise_for_status and
propagates: when the first listed organization's first page fails,
get_org_repos returns that error rather than continuing, and main maps
any such propagated error to the RequestException handler, printing it
and exiting with status 1 instead of carrying on with the run. -/
theorem claim_C2_amended :
    (∀ (orgsResp : HttpResp (List String))
        (orgPage : String → Nat → HttpResp (List Repo))
        (fuel : Nat) (org : String) (rest : List String),
      isHttpError orgsResp.status = false → orgsResp.body = org :: rest →
      isHttpError ((orgPage org) 1).status = true →
      get_org_repos orgsResp orgPage (fuel + 1) =
        some (.error ((orgPage org) 1).status))
    ∧ (∀ (token : Option String) (w : World) (fuel : Nat) (e : Nat)
        (repos : List Repo) (log : List (Nat × Nat)),
      tokenMissing token = false → isHttpError w.userResp.status = false →
      get_user_repos w.userReposPage fuel = some (.ok repos, log) →
      get_org_repos w.orgsResp w.orgPage fuel = some (.error e) →
      main token w fuel = some (.httpAbort e)) := by
  constructor
  · intro orgsResp orgPage fuel org rest hok hbody herr
    unfold get_org_repos
    rw [hok]
    simp only [Bool.false_eq_true, if_false]
    rw [hbody]
    have hstop : orgRepoLoop (orgPage org) (fuel + 1) 1 [] =
        some (.error ((orgPage org) 1).status, [(100, 1)]) := by
      rw [orgRepoLoop]
      simp [herr]
    unfold getOrgReposGo
    rw [hstop]
  · intro token w fuel e repos log htok huser hrepos horgs
    unfold main
    rw [htok]
    simp only [Bool.false_eq_true, if_false]
    rw [huser]
    simp only [Bool.false_eq_true, if_false]
    rw [hrepos, horgs]

/-- Witness for claim C2 at the concrete failing world: the single
organization's page request fails with 403, get_org_repos propagates the
error, and main ends in the aborting handler with status 403. -/
theorem claim_C2_witness :
    isHttpError (HttpResp.mk 200 ["acme"]).status = false ∧
    isHttpError ((orgFailWorld.orgPage "acme") 1).status = true ∧
    get_org_repos ⟨200, ["acme"]⟩ orgFailWorld.orgPage 1 = some (.error 403) ∧
    tokenMissing (some "t") = false ∧
    get_user_repos orgFailWorld.userReposPage 1 = some (.ok [], [(100, 1)]) ∧
    get_org_repos orgFailWorld.orgsResp orgFailWorld.orgPage 1 = some (.error 403) ∧
    main (some "t") orgFailWorld 1 = some (.httpAbort 403) := by
  refine ⟨by decide, by decide, ?_, by decide, by decide, by decide, ?_⟩
  · exact claim_C2_amended.1 ⟨200, ["acme"]⟩ orgFailWorld.orgPage 0 "acme" []
      (by decide) (by decide) (by decide)
  · exact claim_C2_amended.2 (some "t") orgFailWorld 1 403 [] [(100, 1)]
      (by decide) (by decide) (by decide) (by decide)

/-- Counterexample to claim C7: the token argument can be present yet
equal to the empty string; Python truthiness then still takes the usage
branch, so it is not the case that the branch is avoided whenever a
token argument is present. -/
theorem claim_C7_counterexample :
    main (some "") trivialWorld 1 = some .usageExit := by decide

/-- Claim C7 (amended): main prints the token prompt and exits with
status 1 exactly when the token argument is absent or is the empty
string (Python falsiness); in that case the outcome is the same whatever
the network holds, so the exit happens before any request; and a
non-empty token never takes this branch. -/
theorem claim_C7_amended :
    (∀ (token : Option String) (w : World) (fuel : Nat),
      main token w fuel = some .usageExit ↔ tokenMissing token = true)
    ∧ (∀ (token : Option String) (w w2 : World) (fuel fuel2 : Nat),
      tokenMissing token = true → main token w fuel = main token w2 fuel2)
    ∧ tokenMissing none = true ∧ tokenMissing (some "") = true ∧
    (∀ t : String, t ≠ "" → tokenMissing (some t) = false) := by
  have hbranch : ∀ (token : Option String) (w : World) (fuel : Nat),
      tokenMissing token = false → main token w fuel ≠ some .usageExit := by
    intro token w fuel htok h
    rw [main, htok] at h
    simp only [Bool.false_eq_true, if_false] at h
    split at h
    · simp at h
    · split at h
      · simp at h
      · simp at h
      · split at h
        · simp at h
        · simp at h
        · split at h
          · simp at h
          · simp at h
  refine ⟨?_, ?_, rfl, rfl, ?_⟩
  · intro token w fuel
    constructor
    · intro h
      by_cases htok : tokenMissing token = true
      · exact htok
      · have hf : tokenMissing token = false := by
          revert htok
          cases tokenMissing token <;> simp
        exact absurd h (hbranch token w fuel hf)
    · intro htok
      rw [main, htok]
      simp
  · intro token w w2 fuel fuel2 htok
    rw [main, htok, main, htok]
    simp
  · intro t ht
    simp [tokenMissing, ht]

/-- Witness for claim C7: the empty world exits through the usage branch
without a token, the branch is insensitive to the world, and a non-empty
token does not take it. -/
theorem claim_C7_witness :
    (main none trivialWorld 1 = some .usageExit ↔ tokenMissing none = true) ∧
    tokenMissing none = true ∧
    main none trivialWorld 1 = main none orgFailWorld 5 ∧
    tokenMissing (some "t") = false ∧
    ¬(main (some "t") trivialWorld 1 = some .usageExit) := by
  refine ⟨claim_C7_amended.1 none trivialWorld 1, by decide,
    claim_C7_amended.2.1 none trivialWorld orgFailWorld 1 5 (by decide),
    by decide, ?_⟩
  intro h
  have h2 := (claim_C7_amended.1 (some "t") trivialWorld 1).mp h
  simp [tokenMissing] at h2

end GitKit
